import Mathlib

/-!
Verification of the hypertransparency site builder (`src/builder.py`).

The Python pipeline is shallowly embedded: each method of
`HypertransparencyBuilder` that the claims touch is translated into an
executable Lean definition over explicit data.  Python dictionaries become
structures (or association lists where the key set is open), mutation
becomes explicit state threading, `try/except` becomes `Option`/`Except`,
and the two external effects (the git subprocess and the output
filesystem) become explicit inputs: an object-store function and a
path-to-bytes map.  Strings are Lean `String`s; Python's `str.lower`,
`str.strip` and the `\w` character class are modelled by their ASCII
behaviour, which is all the claims exercise.
-/

namespace Hypertransparency

/-! ## Paginator (`paginate_messages`, builder.py lines 457-475)

The Python loop `for i in range(0, len(messages), page_size)` visits the
indices `k * page_size` for `k < ceil(len(messages) / page_size)` (the
source assumes `page_size > 0`; `range` with step 0 raises).  Each page is
built exactly as in the source: `page = i // page_size + 1`,
`totalPages = (len + page_size - 1) // page_size`, `startIndex = i`,
`endIndex = i + len(messages[i:i+page_size])`. -/

structure Page (α : Type) where
  page : Nat
  totalPages : Nat
  startIndex : Nat
  endIndex : Nat
  messages : List α
deriving Repr, DecidableEq

def paginateMessages {α : Type} (pageSize : Nat) (messages : List α) : List (Page α) :=
  (List.range ((messages.length + pageSize - 1) / pageSize)).map (fun k =>
    let i := k * pageSize
    let pageMessages := (messages.drop i).take pageSize
    { page := i / pageSize + 1
      totalPages := (messages.length + pageSize - 1) / pageSize
      startIndex := i
      endIndex := i + pageMessages.length
      messages := pageMessages })

/-! ## Message data model (`_parse_message_entry`, builder.py lines 118-197)

A `ToolCall` is the structured form of a `tool_use` item; its `input` is
the tool-input dictionary.  All tool inputs the builder ever reads
(`file_path`, `old_string`, `new_string`, `command`, `pattern`) are
strings, so the dictionary is modelled as a string-to-string association
list; `input_data.get(key, "")` is `getInput`. -/

abbrev ToolInput := List (String × String)

def getInput (input : ToolInput) (key : String) : String :=
  (input.lookup key).getD ""

structure ToolCall where
  id : String
  name : String
  input : ToolInput
  inputPreview : String
  hasResult : Bool
  resultPreview : Option String
deriving Repr, DecidableEq

structure MessageContent where
  text : String
  textPreview : String
  hasThinking : Bool
  thinkingPreview : Option String
  toolCalls : List ToolCall
deriving Repr, DecidableEq

structure Message where
  id : String
  uuid : String
  parentUuid : Option String
  role : String
  timestamp : String
  sessionId : String
  lineNum : Nat
  content : MessageContent
  artifacts : List String
  relatedCommits : List String
  searchText : String
deriving Repr, DecidableEq

/-! ## String primitives

Python's `str` methods are modelled on the character list of a Lean
`String` (structural/fuelled recursion, so all definitions evaluate by
kernel reduction on concrete inputs).  `lower`/`strip` use the ASCII
behaviour, which is all the builder's data exercises. -/

def strLower (s : String) : String :=
  String.mk (s.toList.map Char.toLower)

def strTrim (s : String) : String :=
  String.mk (((s.toList.dropWhile Char.isWhitespace).reverse.dropWhile
    Char.isWhitespace).reverse)

def strTake (s : String) (n : Nat) : String :=
  String.mk (s.toList.take n)

def strDrop (s : String) (n : Nat) : String :=
  String.mk (s.toList.drop n)

def strStartsWith (s pre : String) : Bool :=
  pre.toList.isPrefixOf s.toList

def strEndsWith (s suf : String) : Bool :=
  suf.toList.isSuffixOf s.toList

/-- Python `s.split(sep)` for a non-empty separator, on character lists.
Each step consumes at least one character, so `s.length` is enough fuel. -/
def splitOnFuel (sep : List Char) : Nat → List Char → List Char → List (List Char)
  | _, [], acc => [acc.reverse]
  | 0, s, acc => [acc.reverse ++ s]
  | fuel + 1, c :: rest, acc =>
    if sep.isPrefixOf (c :: rest) then
      acc.reverse :: splitOnFuel sep fuel (List.drop sep.length (c :: rest)) []
    else splitOnFuel sep fuel rest (c :: acc)

def strSplitOn (s sep : String) : List String :=
  if sep = "" then [s]
  else (splitOnFuel sep.toList s.toList.length s.toList []).map (fun cs => String.mk cs)

/-- Python `s.replace(pat, rep)` for a non-empty pattern. -/
def replaceFuel (pat rep : List Char) : Nat → List Char → List Char
  | _, [] => []
  | 0, s => s
  | fuel + 1, c :: rest =>
    if pat.isPrefixOf (c :: rest) then
      rep ++ replaceFuel pat rep fuel (List.drop pat.length (c :: rest))
    else c :: replaceFuel pat rep fuel rest

def strReplace (s pat rep : String) : String :=
  if pat = "" then s
  else String.mk (replaceFuel pat.toList rep.toList s.toList.length s.toList)

/-! ## Search indexer (`build_search_index`, builder.py lines 429-455)

`re.findall(r"\b\w+\b", s.lower())` returns the maximal runs of word
characters of the lowercased text; `\w` is modelled by its ASCII subset
(alphanumeric or underscore). -/

def isWordChar (c : Char) : Bool := c.isAlphanum || c == '_'

def tokenizeAux : List Char → List Char → List (List Char)
  | [], acc => if acc.isEmpty then [] else [acc.reverse]
  | c :: cs, acc =>
    if isWordChar c then tokenizeAux cs (c :: acc)
    else if acc.isEmpty then tokenizeAux cs [] else acc.reverse :: tokenizeAux cs []

def tokenize (s : String) : List String :=
  (tokenizeAux (strLower s).toList []).map (fun cs => String.mk cs)

/-- The source's `seen`-set loop: keep, in first-occurrence order, each word
of length at least 3 that is not in `seen` yet. -/
def scanWords : List String → List String → List String
  | _, [] => []
  | seen, w :: ws =>
    if 3 ≤ w.length ∧ w ∉ seen then w :: scanWords (w :: seen) ws
    else scanWords seen ws

/-- The unique indexable words of one message, in first-occurrence order. -/
def msgUniqueWords (m : Message) : List String :=
  scanWords [] (tokenize m.searchText)

/-- A Python `defaultdict(list)` under insertion order: append `x` to the
list at key `w`, creating the key at the end when absent.  Used both for
the inverted index's posting lists and the image-version map. -/
def appendAt {α : Type} : List (String × List α) → String → α → List (String × List α)
  | [], w, x => [(w, [x])]
  | (w', xs) :: rest, w, x =>
    if w' = w then (w', xs ++ [x]) :: rest else (w', xs) :: appendAt rest w x

abbrev Terms := List (String × List Nat)

structure DocEntry where
  id : String
  page : Nat
  role : String
  preview : String
deriving Repr, DecidableEq

structure SearchIndex where
  version : String
  documents : Nat
  terms : Terms
  documentMap : List (String × DocEntry)
deriving Repr, DecidableEq

/-- One iteration of the source's `for i, msg in enumerate(messages)` loop:
extend the document map, post every unique word of the message, advance the
position counter. -/
def indexStep (pageSize : Nat) (st : List (String × DocEntry) × Terms × Nat)
    (m : Message) : List (String × DocEntry) × Terms × Nat :=
  let (dm, tm, i) := st
  (dm ++ [(toString i,
      { id := m.id
        page := i / pageSize + 1
        role := m.role
        preview := strTake m.content.textPreview 50 })],
   (msgUniqueWords m).foldl (fun t w => appendAt t w i) tm,
   i + 1)

def buildSearchIndex (pageSize : Nat) (messages : List Message) : SearchIndex :=
  let (dm, tm, _) := messages.foldl (indexStep pageSize) ([], [], 0)
  { version := "1.0"
    documents := messages.length
    terms := tm
    documentMap := dm }

/-! Specification-side views of the index, used to state the claims. -/

/-- The document-map entries the loop produces from position `i` on. -/
def docEntriesFrom (pageSize : Nat) (i : Nat) : List Message → List (String × DocEntry)
  | [] => []
  | m :: ms =>
    (toString i,
      { id := m.id
        page := i / pageSize + 1
        role := m.role
        preview := strTake m.content.textPreview 50 }) :: docEntriesFrom pageSize (i + 1) ms

/-- The terms map after posting the messages from position `i` on. -/
def termsFrom (tm : Terms) (i : Nat) : List Message → Terms
  | [] => tm
  | m :: ms => termsFrom ((msgUniqueWords m).foldl (fun t w => appendAt t w i) tm) (i + 1) ms

/-- The positions, from `i` on, of the messages whose unique-word list
contains `w`. -/
def occPositions (w : String) : Nat → List Message → List Nat
  | _, [] => []
  | i, m :: ms =>
    if w ∈ msgUniqueWords m then i :: occPositions w (i + 1) ms
    else occPositions w (i + 1) ms

/-! ## Builder configuration (`DEFAULT_CONFIG`, builder.py lines 30-38)

Only the options the embedded stages read are modelled. -/

structure Config where
  messagesPerPage : Nat := 100
  showThinkingPreview : Bool := true
  toolResultMaxLength : Nat := 500
deriving Repr, DecidableEq

/-! ## Path helpers (`pathlib` operations the builder uses)

`Path(s).name` and `Path(s).suffix` are modelled on already-normalized
POSIX path strings, which is what the builder feeds them. -/

def pathName (s : String) : String :=
  ((strSplitOn s "/").filter (fun c => c ≠ "")).getLastD ""

def lastIndexOfChar (c : Char) (cs : List Char) : Option Nat :=
  (cs.foldl (fun (st : Nat × Option Nat) x =>
    (st.1 + 1, if x = c then some st.1 else st.2)) (0, none)).2

def pathSuffix (s : String) : String :=
  let cs := (pathName s).toList
  match lastIndexOfChar '.' cs with
  | some i => if 0 < i ∧ i < cs.length - 1 then String.mk (cs.drop i) else ""
  | none => ""

/-- Python's `needle in hay` on strings: `needle` occurs contiguously in
`hay` (an empty needle always occurs). -/
def infixCheck (n : List Char) : List Char → Bool
  | [] => n.isEmpty
  | c :: t => n.isPrefixOf (c :: t) || infixCheck n t

def strContainsSub (needle hay : String) : Bool :=
  infixCheck needle.toList hay.toList

/-- Index of the first occurrence of `pat` in `s`, if any. -/
def findSub (pat : List Char) : List Char → Option Nat
  | [] => if pat.isEmpty then some 0 else none
  | c :: t => if pat.isPrefixOf (c :: t) then some 0 else (findSub pat t).map (· + 1)

/-- One `re.sub(r"<open>.*?</close>", "", text, flags=DOTALL)` pass with
literal delimiter strings: repeatedly delete the region from the leftmost
opening delimiter to the first closing delimiter after it.  (If the first
opening delimiter has no closing one after it, no later one has either, so
the regex finds no match — exactly this function's behaviour.)  Each step
removes at least one character, so `s.length` is enough fuel. -/
def removeDelimited (op cl : List Char) : Nat → List Char → List Char
  | 0, s => s
  | fuel + 1, s =>
    match findSub op s with
    | none => s
    | some idx =>
      let pre := s.take idx
      let rest := s.drop (idx + op.length)
      match findSub cl rest with
      | none => s
      | some j => pre ++ removeDelimited op cl fuel (rest.drop (j + cl.length))

def stripOnePair (op cl : String) (s : String) : String :=
  String.mk (removeDelimited op.toList cl.toList s.toList.length s.toList)

/-- The four `re.sub` calls of `_parse_message_entry` (builder.py lines
155-158), in source order. -/
def stripContextTags (s : String) : String :=
  stripOnePair "<ide_file_context>" "</ide_file_context>"
    (stripOnePair "<ide_selection>" "</ide_selection>"
      (stripOnePair "<ide_opened_file>" "</ide_opened_file>"
        (stripOnePair "<system-reminder>" "</system-reminder>" s)))

/-! ## Transcript records (`parse_transcript` input, builder.py lines 98-197)

One JSONL line either fails to decode (`none`) or yields a `Record`.  A
non-dict content item, or one with an unrecognized `type`, is skipped by
the source loop; both are the `other` constructor. -/

inductive TRContent where
  | str (s : String)
  | list (items : List (Option String))
deriving Repr, DecidableEq

structure ToolUseItem where
  id : String
  name : String
  input : ToolInput
deriving Repr, DecidableEq

inductive ContentItem where
  | text (s : String)
  | thinking (s : String)
  | toolResult (c : TRContent)
  | toolUse (t : ToolUseItem)
  | other
deriving Repr, DecidableEq

structure Record where
  type : String
  uuid : String
  parentUuid : Option String
  timestamp : String
  sessionId : String
  content : List ContentItem
deriving Repr, DecidableEq

/-! ## Artifact extraction (`_extract_artifact_from_tool`, builder.py 236-269) -/

structure ArtifactPreview where
  before : String
  after : String
deriving Repr, DecidableEq

structure Artifact where
  id : String
  type : String
  path : String
  relativePath : String
  operation : String
  timestamp : String
  messageId : String
  toolCallId : String
  language : String
  preview : Option ArtifactPreview
deriving Repr, DecidableEq

/-- `_make_relative_path` (builder.py lines 271-276): `Path.relative_to`
on normalized absolute paths, falling back to the base name. -/
def makeRelativePath (repoPath absPath : String) : String :=
  if absPath = repoPath then "."
  else if strStartsWith absPath (repoPath ++ "/") then strDrop absPath (repoPath.length + 1)
  else pathName absPath

/-- `_detect_language` (builder.py lines 278-285). -/
def detectLanguage (filePath : String) : String :=
  let ext := strLower (pathSuffix filePath)
  if ext = ".py" then "python"
  else if ext = ".do" then "stata"
  else if ext = ".js" then "javascript"
  else if ext = ".ts" then "typescript"
  else if ext = ".html" then "html"
  else if ext = ".css" then "css"
  else if ext = ".json" then "json"
  else if ext = ".md" then "markdown"
  else if ext = ".sh" then "bash"
  else if ext = ".r" then "r"
  else "text"

/-- The artifact identifier.  The source computes
`"art_" + md5(f"{uuid}_{file_path}")[:8]`; the MD5 digest is modelled by
its preimage key (an injective stand-in), since no claim depends on digest
values, only on identifiers. -/
def artifactKey (uuid filePath : String) : String :=
  "art_" ++ uuid ++ "_" ++ filePath

def extractArtifactFromTool (repoPath uuid msgId ts : String) (tc : ToolCall) :
    Option Artifact :=
  if tc.name ∉ ["Write", "Edit", "Read"] then none
  else
    let filePath := getInput tc.input "file_path"
    if filePath = "" then none
    else some
      { id := artifactKey uuid filePath
        type :=
          if tc.name = "Edit" then "file_edit"
          else if tc.name = "Write" then "file_create"
          else "file_read"
        path := filePath
        relativePath := makeRelativePath repoPath filePath
        operation := tc.name
        timestamp := ts
        messageId := msgId
        toolCallId := tc.id
        language := detectLanguage filePath
        preview :=
          if tc.name = "Edit" then
            some { before := strTake (getInput tc.input "old_string") 100
                   after := strTake (getInput tc.input "new_string") 100 }
          else none }

/-! ## Tool-call parsing (`_parse_tool_use` and helpers, builder.py 199-234) -/

/-- `_create_tool_preview` (builder.py lines 214-224); the preview is built
from the raw, unsanitized input. -/
def createToolPreview (name : String) (input : ToolInput) : String :=
  if name = "Read" then "Read " ++ pathName (getInput input "file_path")
  else if name = "Write" then "Write " ++ pathName (getInput input "file_path")
  else if name = "Edit" then "Edit " ++ pathName (getInput input "file_path")
  else if name = "Bash" then
    "Run: " ++ strTake (getInput input "command") 50 ++
      (if (getInput input "command").length > 50 then "..." else "")
  else if name = "Glob" then "Find files: " ++ getInput input "pattern"
  else if name = "Grep" then
    "Search: " ++ strTake (getInput input "pattern") 30 ++
      (if (getInput input "pattern").length > 30 then "..." else "")
  else name

/-- `_sanitize_tool_input` (builder.py lines 226-234): truncate every
string value longer than `tool_result_max_length`.  (All modelled input
values are strings; the source leaves non-string values alone.) -/
def sanitizeToolInput (cfg : Config) (input : ToolInput) : ToolInput :=
  input.map (fun kv =>
    (kv.1,
     if kv.2.length > cfg.toolResultMaxLength then
       strTake kv.2 cfg.toolResultMaxLength ++ "..."
     else kv.2))

def parseToolUse (cfg : Config) (item : ToolUseItem) : ToolCall :=
  { id := item.id
    name := item.name
    input := sanitizeToolInput cfg item.input
    inputPreview := createToolPreview item.name item.input
    hasResult := false
    resultPreview := none }

/-! ## Message parsing (`_parse_message_entry`, builder.py lines 118-197) -/

structure ParseState where
  textParts : List String
  searchParts : List String
  hasThinking : Bool
  thinkingPreview : Option String
  toolCalls : List ToolCall
  artifactIds : List String
deriving Repr, DecidableEq

def initParseState : ParseState :=
  { textParts := []
    searchParts := []
    hasThinking := false
    thinkingPreview := none
    toolCalls := []
    artifactIds := [] }

def processItem (cfg : Config) (repoPath uuid msgId ts : String) (st : ParseState) :
    ContentItem → ParseState
  | .text s =>
    let t := strTrim (stripContextTags s)
    if t ≠ "" then
      { st with textParts := st.textParts ++ [t], searchParts := st.searchParts ++ [strLower t] }
    else st
  | .thinking s =>
    if s ≠ "" then
      { st with
        hasThinking := true
        thinkingPreview :=
          if cfg.showThinkingPreview then
            some (if s.length > 300 then strTake s 300 ++ "..." else s)
          else st.thinkingPreview }
    else st
  | .toolResult (.str s) =>
    if strStartsWith s "User has answered" then
      { st with textParts := st.textParts ++ [s], searchParts := st.searchParts ++ [strLower s] }
    else st
  | .toolResult (.list items) =>
    items.foldl (fun st item =>
      match item with
      | some t =>
        if strStartsWith t "User has answered" then
          { st with textParts := st.textParts ++ [t],
                    searchParts := st.searchParts ++ [strLower t] }
        else st
      | none => st) st
  | .toolUse item =>
    let tc := parseToolUse cfg item
    let st := { st with toolCalls := st.toolCalls ++ [tc] }
    match extractArtifactFromTool repoPath uuid msgId ts tc with
    | some a => { st with artifactIds := st.artifactIds ++ [a.id] }
    | none => st
  | .other => st

def parseMessageEntry (cfg : Config) (repoPath : String) (r : Record) (lineNum : Nat) :
    Message :=
  let msgId := "msg_" ++ strTake r.uuid 8
  let st := r.content.foldl (processItem cfg repoPath r.uuid msgId r.timestamp) initParseState
  let text := String.intercalate "\n\n" st.textParts
  { id := msgId
    uuid := r.uuid
    parentUuid := r.parentUuid
    role := r.type
    timestamp := r.timestamp
    sessionId := r.sessionId
    lineNum := lineNum
    content :=
      { text := text
        textPreview := if text.length > 200 then strTake text 200 ++ "..." else text
        hasThinking := st.hasThinking
        thinkingPreview := st.thinkingPreview
        toolCalls := st.toolCalls }
    artifacts := st.artifactIds
    relatedCommits := []
    searchText := String.intercalate " " st.searchParts }

/-- `parse_transcript` (builder.py lines 98-116) over already-decoded
lines: `none` is a line `json.loads` rejected (skipped), `some r` a decoded
record.  Line numbers start at `idx` (1 at the top-level entry point). -/
def parseTranscriptAux (cfg : Config) (repoPath : String) :
    Nat → List (Option Record) → List Message
  | _, [] => []
  | idx, none :: rest => parseTranscriptAux cfg repoPath (idx + 1) rest
  | idx, some r :: rest =>
    if r.type = "user" ∨ r.type = "assistant" then
      let m := parseMessageEntry cfg repoPath r idx
      if m.content.text ≠ "" ∨ m.content.toolCalls ≠ [] then
        m :: parseTranscriptAux cfg repoPath (idx + 1) rest
      else parseTranscriptAux cfg repoPath (idx + 1) rest
    else parseTranscriptAux cfg repoPath (idx + 1) rest

def parseTranscript (cfg : Config) (repoPath : String) (lines : List (Option Record)) :
    List Message :=
  parseTranscriptAux cfg repoPath 1 lines

/-- The spec's concrete `Write` tool call: `file_path="/repo/a.py"`. -/
def writeCallExample : ToolCall :=
  { id := "toolu_01"
    name := "Write"
    input := [("file_path", "/repo/a.py"), ("content", "print(1)")]
    inputPreview := "Write a.py"
    hasResult := false
    resultPreview := none }

/-- A concrete `Edit` tool call used in witnesses. -/
def editCallExample : ToolCall :=
  { id := "toolu_02"
    name := "Edit"
    input := [("file_path", "/repo/a.py"), ("old_string", "aa"), ("new_string", "bb")]
    inputPreview := "Edit a.py"
    hasResult := false
    resultPreview := none }

/-- A user record with text, retained by the parser. -/
def userRecordExample : Record :=
  { type := "user"
    uuid := "11112222-aaaa"
    parentUuid := none
    timestamp := "1970-01-01T09:00:00Z"
    sessionId := "s1"
    content := [ContentItem.text "hello there"] }

/-- An assistant record with neither text nor tool calls, dropped by the
parser. -/
def emptyRecordExample : Record :=
  { type := "assistant"
    uuid := "33334444-bbbb"
    parentUuid := some "11112222-aaaa"
    timestamp := "1970-01-01T09:00:05Z"
    sessionId := "s1"
    content := [ContentItem.toolResult (TRContent.str "raw tool output")] }

/-! ## Commit extractor (`get_git_commits`, builder.py lines 287-327)

The subprocess invocation is the function's input: either its captured
stdout, or the error the source's `except (TimeoutExpired,
FileNotFoundError)` clause absorbs. -/

structure FileChange where
  status : String
  path : String
deriving Repr, DecidableEq

structure VersionedArtifact where
  path : String
  localPath : String
deriving Repr, DecidableEq

structure Commit where
  hash : String
  fullHash : String
  timestamp : String
  message : String
  author : String
  filesChanged : List FileChange
  relatedMessages : List String
  relatedArtifacts : List String
  versionedArtifacts : List VersionedArtifact := []
deriving Repr, DecidableEq

inductive GitError where
  | timeout
  | fileNotFound
deriving Repr, DecidableEq

/-- Python `s.split(sep, maxsplit=n)`. -/
def pySplitMax (s sep : String) (n : Nat) : List String :=
  let parts := strSplitOn s sep
  if parts.length ≤ n + 1 then parts
  else parts.take n ++ [String.intercalate sep (parts.drop n)]

/-- One line of the `git log` output: a header line (at least three pipes)
flushes the current commit and starts a new one; a non-blank tab-separated
line with at least two fields attaches a file change to the current
commit. -/
def gitLogStep (st : List Commit × Option Commit) (line : String) :
    List Commit × Option Commit :=
  if infixCheck "|".toList line.toList && 3 ≤ line.toList.count '|' then
    let commits := match st.2 with
      | some c => st.1 ++ [c]
      | none => st.1
    let parts := pySplitMax line "|" 3
    (commits, some
      { hash := strTake (parts.getD 0 "") 7
        fullHash := parts.getD 0 ""
        timestamp := strTrim (parts.getD 1 "")
        message := strTrim (parts.getD 2 "")
        author := if 3 < parts.length then strTrim (parts.getD 3 "") else ""
        filesChanged := []
        relatedMessages := []
        relatedArtifacts := [] })
  else
    match st.2 with
    | some c =>
      if strTrim line ≠ "" then
        let parts := strSplitOn line "\t"
        if 2 ≤ parts.length then
          (st.1, some { c with filesChanged := c.filesChanged ++
            [{ status := parts.getD 0 "", path := parts.getD 1 "" }] })
        else (st.1, some c)
      else (st.1, some c)
    | none => st

def parseGitLog (out : String) : List Commit :=
  let st := (strSplitOn out "\n").foldl gitLogStep ([], none)
  match st.2 with
  | some c => st.1 ++ [c]
  | none => st.1

def getGitCommits (invocation : Except GitError String) : List Commit :=
  match invocation with
  | .error _ => []
  | .ok out => parseGitLog out

/-! ## Timestamp parsing for the correlator (builder.py lines 331-347)

Modelled from Python's `datetime.fromisoformat`, restricted to the
canonical `YYYY-MM-DDTHH:MM:SS` shape that both correlator call sites
normalize their input to; any other string parses as `none`.  The value is
the timestamp in seconds, with days counted by the standard
days-from-civil-date formula, so differences of two parsed timestamps are
exact second deltas. -/

def isLeapYear (y : Nat) : Bool :=
  (y % 4 = 0 && y % 100 ≠ 0) || y % 400 = 0

def daysInMonth (y m : Nat) : Nat :=
  if m = 2 then (if isLeapYear y then 29 else 28)
  else if m = 4 ∨ m = 6 ∨ m = 9 ∨ m = 11 then 30
  else 31

def daysFromCivil (y m d : Nat) : Int :=
  let ys := y - (if m ≤ 2 then 1 else 0)
  let era := ys / 400
  let yoe := ys - era * 400
  let doy := (153 * (if 2 < m then m - 3 else m + 9) + 2) / 5 + (d - 1)
  let doe := yoe * 365 + yoe / 4 - yoe / 100 + doy
  (era : Int) * 146097 + (doe : Int) - 719468

def digitVal (c : Char) : Nat := c.toNat - 48

def parseFixedIso (s : String) : Option Int :=
  match s.toList with
  | [y1, y2, y3, y4, '-', m1, m2, '-', d1, d2, 'T', h1, h2, ':', mi1, mi2, ':', s1, s2] =>
    if (y1.isDigit && y2.isDigit && y3.isDigit && y4.isDigit && m1.isDigit && m2.isDigit
        && d1.isDigit && d2.isDigit && h1.isDigit && h2.isDigit && mi1.isDigit
        && mi2.isDigit && s1.isDigit && s2.isDigit) then
      let y := 1000 * digitVal y1 + 100 * digitVal y2 + 10 * digitVal y3 + digitVal y4
      let mo := 10 * digitVal m1 + digitVal m2
      let d := 10 * digitVal d1 + digitVal d2
      let h := 10 * digitVal h1 + digitVal h2
      let mi := 10 * digitVal mi1 + digitVal mi2
      let sec := 10 * digitVal s1 + digitVal s2
      if 1 ≤ y ∧ 1 ≤ mo ∧ mo ≤ 12 ∧ 1 ≤ d ∧ d ≤ daysInMonth y mo ∧
          h ≤ 23 ∧ mi ≤ 59 ∧ sec ≤ 59 then
        some (86400 * daysFromCivil y mo d + ((3600 * h + 60 * mi + sec : Nat) : Int))
      else none
    else none
  | _ => none

/-- The commit-side timestamp munging of `match_commits_to_messages`
(builder.py lines 333-334): `" ".join(ts.split(" ")[0:2]).replace(" ", "T")`. -/
def commitTime (c : Commit) : Option Int :=
  parseFixedIso
    (strReplace (String.intercalate " " ((strSplitOn c.timestamp " ").take 2)) " " "T")

/-- The message-side munging (builder.py line 343):
`ts.replace("Z", "").split(".")[0]`. -/
def msgTime (m : Message) : Option Int :=
  parseFixedIso ((strSplitOn (strReplace m.timestamp "Z" "") ".").headD "")

/-! ## Commit-message correlator (`match_commits_to_messages`,
builder.py lines 329-359) -/

/-- `self.artifacts.get(artifact_id, {}).get("relativePath", "")`. -/
def artifactRelPath (arts : List (String × Artifact)) (aid : String) : String :=
  match arts.lookup aid with
  | some a => a.relativePath
  | none => ""

/-- The inner file-change loop for one artifact: the source appends the
link at the first file change satisfying
`rel_path and rel_path in file_change.get("path", "")` and then breaks, so
an artifact produces a link exactly when some file change matches. -/
def artifactHasMatch (arts : List (String × Artifact)) (fcs : List FileChange)
    (aid : String) : Bool :=
  fcs.any (fun fc =>
    artifactRelPath arts aid ≠ "" && strContainsSub (artifactRelPath arts aid) fc.path)

def linkArtifact (arts : List (String × Artifact)) (c : Commit) (m : Message)
    (aid : String) : Commit × Message :=
  if artifactHasMatch arts c.filesChanged aid then
    ({ c with relatedMessages := c.relatedMessages ++ [m.id]
              relatedArtifacts := c.relatedArtifacts ++ [aid] },
     { m with relatedCommits := m.relatedCommits ++ [c.hash] })
  else (c, m)

/-- The per-pair guard of the correlator: assistant role, both timestamps
parseable, and `timedelta(0) <= commit_time - msg_time <= timedelta(hours=1)`.
(The source parses the commit timestamp once per commit; the parse is pure,
so re-evaluating it per pair is equivalent.) -/
def isCandidate (c : Commit) (m : Message) : Bool :=
  if m.role ≠ "assistant" then false
  else
    match commitTime c, msgTime m with
    | some tc, some tm => decide (0 ≤ tc - tm) && decide (tc - tm ≤ 3600)
    | _, _ => false

def correlatePair (arts : List (String × Artifact)) (c : Commit) (m : Message) :
    Commit × Message :=
  if isCandidate c m then
    m.artifacts.foldl (fun cm aid => linkArtifact arts cm.1 cm.2 aid) (c, m)
  else (c, m)

def correlateMsgs (arts : List (String × Artifact)) :
    Commit → List Message → Commit × List Message
  | c, [] => (c, [])
  | c, m :: ms =>
    let (c', m') := correlatePair arts c m
    let (c'', ms') := correlateMsgs arts c' ms
    (c'', m' :: ms')

def matchCommitsToMessages (arts : List (String × Artifact)) :
    List Commit → List Message → List Commit × List Message
  | [], msgs => ([], msgs)
  | c :: cs, msgs =>
    match commitTime c with
    | none =>
      let (cs', msgs') := matchCommitsToMessages arts cs msgs
      (c :: cs', msgs')
    | some _ =>
      let (c', msgs') := correlateMsgs arts c msgs
      let (cs', msgs'') := matchCommitsToMessages arts cs msgs'
      (c' :: cs', msgs'')

/-- Modelled from claim C3's wording, not from the source: for each
file-change entry of the commit, scan the candidate message's artifacts in
order and, at the first artifact whose repo-relative path is a non-empty
substring of that changed file's path, record the bidirectional link and
stop scanning the remaining artifacts for this file-change entry ("first
match wins per file-change").  Compared against `correlatePair` below. -/
def correlatePairPerFileChange (arts : List (String × Artifact)) (c : Commit)
    (m : Message) : Commit × Message :=
  if isCandidate c m then
    c.filesChanged.foldl (fun cm fc =>
      match m.artifacts.find? (fun aid =>
          artifactRelPath arts aid ≠ "" &&
            strContainsSub (artifactRelPath arts aid) fc.path) with
      | some aid =>
        ({ cm.1 with relatedMessages := cm.1.relatedMessages ++ [m.id]
                     relatedArtifacts := cm.1.relatedArtifacts ++ [aid] },
         { cm.2 with relatedCommits := cm.2.relatedCommits ++ [c.hash] })
      | none => cm) (c, m)
  else (c, m)

/-! ## Versioned-artifact extractor (`extract_versioned_artifacts`,
builder.py lines 361-402)

The `git show` object-store queries become the input `store` (full hash
and path to retrieved bytes, `none` for a failed or non-zero-status
retrieval), and the output directory becomes an explicit map from local
path to written bytes. -/

structure ImageVersion where
  commitHash : String
  timestamp : String
  localPath : String
deriving Repr, DecidableEq

abbrev ImageVersions := List (String × List ImageVersion)

def FS : Type := String → Option String

def fsWrite (fs : FS) (p content : String) : FS :=
  fun q => if q = p then some content else fs q

/-- What one file-change entry of a commit stores, if anything:
`(image base name, local path, retrieved bytes)`. -/
def changeWrite (store : String → String → Option String) (c : Commit)
    (fc : FileChange) : Option (String × String × String) :=
  if strEndsWith fc.path ".png" || strEndsWith fc.path ".jpg" then
    match store c.fullHash fc.path with
    | some content =>
      let imageName := pathName fc.path
      some (imageName, "data/artifacts/" ++ c.hash ++ "/" ++ imageName, content)
    | none => none
  else none

def extractFileChange (store : String → String → Option String) (c : Commit)
    (acc : Commit × ImageVersions × FS) (fc : FileChange) :
    Commit × ImageVersions × FS :=
  let (cur, iv, fs) := acc
  match changeWrite store c fc with
  | some w =>
    ({ cur with versionedArtifacts := cur.versionedArtifacts ++
        [{ path := fc.path, localPath := w.2.1 }] },
     appendAt iv w.1 { commitHash := c.hash, timestamp := c.timestamp, localPath := w.2.1 },
     fsWrite fs w.2.1 w.2.2)
  | none => (cur, iv, fs)

def extractCommit (store : String → String → Option String) (c : Commit)
    (iv : ImageVersions) (fs : FS) : Commit × ImageVersions × FS :=
  c.filesChanged.foldl (extractFileChange store c) (c, iv, fs)

def extractVersionedArtifacts (store : String → String → Option String) :
    List Commit → ImageVersions → FS → List Commit × ImageVersions × FS
  | [], iv, fs => ([], iv, fs)
  | c :: cs, iv, fs =>
    let (c', iv', fs') := extractCommit store c iv fs
    let (cs', iv'', fs'') := extractVersionedArtifacts store cs iv' fs'
    (c' :: cs', iv'', fs'')

/-! Specification-side projections of the extractor, used for claim C8. -/

def stepCommit (store : String → String → Option String) (c : Commit)
    (cur : Commit) (fc : FileChange) : Commit :=
  match changeWrite store c fc with
  | some w => { cur with versionedArtifacts := cur.versionedArtifacts ++
      [{ path := fc.path, localPath := w.2.1 }] }
  | none => cur

def stepIV (store : String → String → Option String) (c : Commit)
    (iv : ImageVersions) (fc : FileChange) : ImageVersions :=
  match changeWrite store c fc with
  | some w => appendAt iv w.1
      { commitHash := c.hash, timestamp := c.timestamp, localPath := w.2.1 }
  | none => iv

def stepFS (store : String → String → Option String) (c : Commit)
    (fs : FS) (fc : FileChange) : FS :=
  match changeWrite store c fc with
  | some w => fsWrite fs w.2.1 w.2.2
  | none => fs

def commitsOut (store : String → String → Option String) : List Commit → List Commit
  | [] => []
  | c :: cs => c.filesChanged.foldl (stepCommit store c) c :: commitsOut store cs

def ivOut (store : String → String → Option String) :
    List Commit → ImageVersions → ImageVersions
  | [], iv => iv
  | c :: cs, iv => ivOut store cs (c.filesChanged.foldl (stepIV store c) iv)

def fsOut (store : String → String → Option String) : List Commit → FS → FS
  | [], fs => fs
  | c :: cs, fs => fsOut store cs (c.filesChanged.foldl (stepFS store c) fs)

def writesOf (store : String → String → Option String) (c : Commit)
    (fcs : List FileChange) : List (String × String) :=
  fcs.filterMap (fun fc => (changeWrite store c fc).map (fun w => (w.2.1, w.2.2)))

def allWrites (store : String → String → Option String) : List Commit → List (String × String)
  | [] => []
  | c :: cs => writesOf store c c.filesChanged ++ allWrites store cs

def applyWrites : List (String × String) → FS → FS
  | [], fs => fs
  | w :: ws, fs => applyWrites ws (fsWrite fs w.1 w.2)

def lastWrite : List (String × String) → String → Option String
  | [], _ => none
  | w :: ws, q =>
    match lastWrite ws q with
    | some v => some v
    | none => if w.1 = q then some w.2 else none

/-! ## Concrete correlator inputs used by witnesses and counterexamples. -/

def exArtifact1 : Artifact :=
  { id := "art_ex1", type := "file_create", path := "/repo/src/a.py",
    relativePath := "a.py", operation := "Write",
    timestamp := "1970-01-01T10:00:00Z", messageId := "msg_ex", toolCallId := "t1",
    language := "python", preview := none }

def exArtifact2 : Artifact :=
  { id := "art_ex2", type := "file_edit", path := "/repo/src/a.py",
    relativePath := "src/a.py", operation := "Edit",
    timestamp := "1970-01-01T10:00:00Z", messageId := "msg_ex", toolCallId := "t2",
    language := "python", preview := none }

def exArtifacts : List (String × Artifact) :=
  [("art_ex1", exArtifact1), ("art_ex2", exArtifact2)]

def exMessage : Message :=
  { id := "msg_ex", uuid := "exuuid", parentUuid := none, role := "assistant",
    timestamp := "1970-01-01T10:00:00Z", sessionId := "s1", lineNum := 1,
    content := { text := "wrote a.py", textPreview := "wrote a.py",
                 hasThinking := false, thinkingPreview := none, toolCalls := [] },
    artifacts := ["art_ex1", "art_ex2"], relatedCommits := [],
    searchText := "wrote a.py" }

def exCommit : Commit :=
  { hash := "abc1234", fullHash := "abc1234def5678", timestamp := "1970-01-01 10:30:00 +0000",
    message := "update a", author := "dev",
    filesChanged := [{ status := "M", path := "src/a.py" }],
    relatedMessages := [], relatedArtifacts := [] }

def exCommit59 : Commit :=
  { exCommit with timestamp := "1970-01-01 10:59:00 +0000" }

def exCommit61 : Commit :=
  { exCommit with timestamp := "1970-01-01 11:01:00 +0000" }

def exCommitBefore : Commit :=
  { exCommit with timestamp := "1970-01-01 09:30:00 +0000" }

/-- A concrete message used to instantiate witnesses. -/
def sampleMessage : Message :=
  { id := "msg_00000001"
    uuid := "00000001-aaaa"
    parentUuid := none
    role := "user"
    timestamp := "1970-01-01T10:00:00Z"
    sessionId := "s1"
    lineNum := 1
    content :=
      { text := "hello database"
        textPreview := "hello database"
        hasThinking := false
        thinkingPreview := none
        toolCalls := [] }
    artifacts := []
    relatedCommits := []
    searchText := "hello database" }

/-! Arithmetic facts about the page count `(n + ps - 1) / ps`. -/

lemma le_pageCount_mul (n ps : Nat) (hps : 0 < ps) :
    n ≤ ((n + ps - 1) / ps) * ps := by
  have hdm := Nat.div_add_mod (n + ps - 1) ps
  have hlt : (n + ps - 1) % ps < ps := Nat.mod_lt _ hps
  rw [Nat.mul_comm]
  generalize hA : ps * ((n + ps - 1) / ps) = A at hdm
  omega

lemma pageCount_mul_lt (n ps : Nat) (hps : 0 < ps) :
    ((n + ps - 1) / ps) * ps < n + ps := by
  have h := Nat.div_mul_le_self (n + ps - 1) ps
  omega

lemma length_paginate {α : Type} (ps : Nat) (msgs : List α) :
    (paginateMessages ps msgs).length = (msgs.length + ps - 1) / ps := by
  simp [paginateMessages]

lemma paginate_get {α : Type} (ps : Nat) (msgs : List α) (k : Nat)
    (h : k < (paginateMessages ps msgs).length) :
    (paginateMessages ps msgs).get ⟨k, h⟩ =
      { page := (k * ps) / ps + 1
        totalPages := (msgs.length + ps - 1) / ps
        startIndex := k * ps
        endIndex := k * ps + ((msgs.drop (k * ps)).take ps).length
        messages := (msgs.drop (k * ps)).take ps } := by
  simp [paginateMessages, List.get_eq_getElem]

lemma paginate_startIndex_lt {α : Type} (ps : Nat) (msgs : List α) (k : Nat)
    (hps : 0 < ps) (h : k < (paginateMessages ps msgs).length) :
    k * ps < msgs.length := by
  rw [length_paginate] at h
  have h1 : k + 1 ≤ (msgs.length + ps - 1) / ps := h
  have h2 : (k + 1) * ps ≤ ((msgs.length + ps - 1) / ps) * ps :=
    Nat.mul_le_mul_right ps h1
  have h3 := pageCount_mul_lt msgs.length ps hps
  have h4 : (k + 1) * ps = k * ps + ps := Nat.succ_mul k ps
  generalize k * ps = a at *
  generalize ((msgs.length + ps - 1) / ps) * ps = b at *
  omega

lemma flatten_chunks {α : Type} (ps : Nat) (msgs : List α) (k : Nat) :
    ((List.range k).map (fun j => (msgs.drop (j * ps)).take ps)).flatten =
      msgs.take (k * ps) := by
  induction k with
  | zero => simp
  | succ k ih =>
      rw [List.range_succ, List.map_append, List.flatten_append, ih]
      simp only [List.map_cons, List.map_nil, List.flatten_cons, List.flatten_nil,
        List.append_nil]
      rw [Nat.succ_mul, List.take_add]

/-- Claim C1: for every message list and every positive page size,
concatenating the pages' `messages` lists in page order reproduces the
input exactly; page `k` (0-based) covers the half-open range
`[k * ps, min ((k+1) * ps) N)`, so the ranges are contiguous and
non-overlapping; and every page's `totalPages` field is `ceil (N / ps)`,
stated as the unique `T` with `N ≤ T * ps < N + ps`. -/
theorem paginate_messages_correct {α : Type} (msgs : List α) (ps : Nat) (hps : 0 < ps) :
    ((paginateMessages ps msgs).map Page.messages).flatten = msgs ∧
    (∀ p ∈ paginateMessages ps msgs,
        msgs.length ≤ p.totalPages * ps ∧ p.totalPages * ps < msgs.length + ps) ∧
    (∀ (k : Nat) (h : k < (paginateMessages ps msgs).length),
        ((paginateMessages ps msgs).get ⟨k, h⟩).page = k + 1 ∧
        ((paginateMessages ps msgs).get ⟨k, h⟩).startIndex = k * ps ∧
        ((paginateMessages ps msgs).get ⟨k, h⟩).endIndex =
          min ((k + 1) * ps) msgs.length) := by
  refine ⟨?_, ?_, ?_⟩
  · rw [paginateMessages]
    simp only [List.map_map]
    have : (Page.messages ∘ fun k =>
        let i := k * ps
        let pageMessages := (msgs.drop i).take ps
        ({ page := i / ps + 1, totalPages := (msgs.length + ps - 1) / ps,
           startIndex := i, endIndex := i + pageMessages.length,
           messages := pageMessages } : Page α)) =
        fun j => (msgs.drop (j * ps)).take ps := rfl
    rw [this, flatten_chunks]
    exact List.take_of_length_le (le_pageCount_mul msgs.length ps hps)
  · intro p hp
    rw [paginateMessages] at hp
    simp only [List.mem_map, List.mem_range] at hp
    obtain ⟨k, _, rfl⟩ := hp
    exact ⟨le_pageCount_mul msgs.length ps hps, pageCount_mul_lt msgs.length ps hps⟩
  · intro k h
    have hlt := paginate_startIndex_lt ps msgs k hps h
    rw [paginate_get]
    refine ⟨?_, rfl, ?_⟩
    · simp [Nat.mul_div_cancel k hps]
    · simp only [List.length_take, List.length_drop]
      have h4 : (k + 1) * ps = k * ps + ps := Nat.succ_mul k ps
      generalize k * ps = a at *
      generalize (k + 1) * ps = b at *
      omega

/-- Witness for C1 at the spec's concrete scenario: 120 messages with page
size 100 produce pages whose concatenation is the input, with ranges
`[0, 100)` and `[100, 120)`. -/
theorem paginate_messages_correct_witness :
    ((paginateMessages 100 (List.range 120)).map Page.messages).flatten = List.range 120 ∧
    (paginateMessages 100 (List.range 120)).map
        (fun p => (p.page, p.totalPages, p.startIndex, p.endIndex)) =
      [(1, 2, 0, 100), (2, 2, 100, 120)] :=
  ⟨(paginate_messages_correct (List.range 120) 100 (by decide)).1, by decide⟩

/-! Lemmas about `List.lookup` on association lists. -/

lemma lookup_cons_self {β : Type} (w : String) (b : β) (rest : List (String × β)) :
    List.lookup w ((w, b) :: rest) = some b := by
  simp [List.lookup]

lemma lookup_cons_ne {β : Type} (w w' : String) (h : w' ≠ w) (b : β)
    (rest : List (String × β)) :
    List.lookup w ((w', b) :: rest) = List.lookup w rest := by
  have hb : (w == w') = false := beq_eq_false_iff_ne.mpr (Ne.symm h)
  simp [List.lookup, hb]

lemma lookup_appendAt_self {α : Type} (t : List (String × List α)) (w : String) (x : α) :
    (appendAt t w x).lookup w = some ((t.lookup w).getD [] ++ [x]) := by
  induction t with
  | nil => simp [appendAt, lookup_cons_self, List.lookup]
  | cons p rest ih =>
      obtain ⟨w', xs⟩ := p
      by_cases h : w' = w
      · subst h
        simp [appendAt, lookup_cons_self]
      · rw [appendAt, if_neg h, lookup_cons_ne w w' h, lookup_cons_ne w w' h, ih]

lemma lookup_appendAt_ne {α : Type} (t : List (String × List α)) (w w' : String)
    (h : w ≠ w') (x : α) :
    (appendAt t w' x).lookup w = t.lookup w := by
  induction t with
  | nil =>
      have hb : (w == w') = false := beq_eq_false_iff_ne.mpr h
      simp [appendAt, List.lookup, hb]
  | cons p rest ih =>
      obtain ⟨u, xs⟩ := p
      by_cases hu : u = w'
      · subst hu
        rw [appendAt, if_pos rfl, lookup_cons_ne w u (Ne.symm h), lookup_cons_ne w u (Ne.symm h)]
      · rw [appendAt, if_neg hu]
        by_cases huw : u = w
        · subst huw
          rw [lookup_cons_self, lookup_cons_self]
        · rw [lookup_cons_ne w u huw, lookup_cons_ne w u huw, ih]

/-! Lemmas about `scanWords` (the per-message `seen`-set loop). -/

lemma mem_scanWords (w : String) : ∀ (ws seen : List String),
    w ∈ scanWords seen ws ↔ w ∈ ws ∧ 3 ≤ w.length ∧ w ∉ seen := by
  intro ws
  induction ws with
  | nil => intro seen; simp [scanWords]
  | cons u ws ih =>
      intro seen
      rw [scanWords]
      by_cases hc : 3 ≤ u.length ∧ u ∉ seen
      · rw [if_pos hc]
        simp only [List.mem_cons, ih]
        constructor
        · rintro (rfl | ⟨hws, hlen, hseen⟩)
          · exact ⟨Or.inl rfl, hc.1, hc.2⟩
          · exact ⟨Or.inr hws, hlen, fun hmem => hseen (Or.inr hmem)⟩
        · rintro ⟨hu | hws, hlen, hseen⟩
          · exact Or.inl hu
          · by_cases hwu : w = u
            · exact Or.inl hwu
            · exact Or.inr ⟨hws, hlen, fun hmem => hmem.elim hwu hseen⟩
      · rw [if_neg hc, ih]
        simp only [List.mem_cons]
        constructor
        · rintro ⟨hws, hlen, hseen⟩
          exact ⟨Or.inr hws, hlen, hseen⟩
        · rintro ⟨hu | hws, hlen, hseen⟩
          · subst hu
            exact absurd ⟨hlen, hseen⟩ hc
          · exact ⟨hws, hlen, hseen⟩

lemma scanWords_nodup : ∀ (ws seen : List String), (scanWords seen ws).Nodup := by
  intro ws
  induction ws with
  | nil => intro seen; simp [scanWords]
  | cons u ws ih =>
      intro seen
      rw [scanWords]
      split
      · refine List.nodup_cons.mpr ⟨fun hm => ?_, ih _⟩
        exact ((mem_scanWords u ws (u :: seen)).mp hm).2.2 (List.mem_cons_self u seen)
      · exact ih _

lemma mem_msgUniqueWords (w : String) (m : Message) :
    w ∈ msgUniqueWords m ↔ w ∈ tokenize m.searchText ∧ 3 ≤ w.length := by
  rw [msgUniqueWords, mem_scanWords]
  simp

/-! The posting fold over one message's unique words. -/

lemma lookup_foldl_appendAt (w : String) (i : Nat) :
    ∀ (ws : List String), ws.Nodup → ∀ t : Terms,
      (ws.foldl (fun t u => appendAt t u i) t).lookup w =
        if w ∈ ws then some ((t.lookup w).getD [] ++ [i]) else t.lookup w := by
  intro ws
  induction ws with
  | nil => intro _ t; simp
  | cons u ws ih =>
      intro hnd t
      obtain ⟨hu, hnd'⟩ := List.nodup_cons.mp hnd
      simp only [List.foldl_cons]
      by_cases hw : w = u
      · subst hw
        rw [ih hnd' (appendAt t w i), if_neg hu, lookup_appendAt_self,
          if_pos (List.mem_cons_self w ws)]
      · rw [ih hnd' (appendAt t u i), lookup_appendAt_ne t w u hw i]
        by_cases hmem : w ∈ ws
        · rw [if_pos hmem, if_pos (List.mem_cons_of_mem u hmem)]
        · rw [if_neg hmem, if_neg (fun h => by
            rcases List.mem_cons.mp h with h | h
            · exact hw h
            · exact hmem h)]

/-! The whole index-building fold, projected to its three components. -/

lemma foldl_indexStep (ps : Nat) : ∀ (msgs : List Message)
    (dm : List (String × DocEntry)) (tm : Terms) (i : Nat),
    msgs.foldl (indexStep ps) (dm, tm, i) =
      (dm ++ docEntriesFrom ps i msgs, termsFrom tm i msgs, i + msgs.length) := by
  intro msgs
  induction msgs with
  | nil => intro dm tm i; simp [docEntriesFrom, termsFrom]
  | cons m ms ih =>
      intro dm tm i
      rw [List.foldl_cons, indexStep, ih, docEntriesFrom, termsFrom]
      refine congrArg₂ Prod.mk ?_ (congrArg₂ Prod.mk rfl ?_)
      · simp [List.append_assoc]
      · simp only [List.length_cons]
        omega

lemma lookup_termsFrom (w : String) : ∀ (ms : List Message) (tm : Terms) (i : Nat),
    (termsFrom tm i ms).lookup w =
      if occPositions w i ms = [] then tm.lookup w
      else some ((tm.lookup w).getD [] ++ occPositions w i ms) := by
  intro ms
  induction ms with
  | nil => intro tm i; simp [termsFrom, occPositions]
  | cons m ms ih =>
      intro tm i
      rw [termsFrom, ih, occPositions]
      by_cases hm : w ∈ msgUniqueWords m
      · rw [if_pos hm]
        have hstep : ((msgUniqueWords m).foldl (fun t u => appendAt t u i) tm).lookup w =
            some ((tm.lookup w).getD [] ++ [i]) := by
          rw [lookup_foldl_appendAt w i (msgUniqueWords m) (scanWords_nodup _ _) tm,
            if_pos hm]
        by_cases ho : occPositions w (i + 1) ms = []
        · rw [if_pos ho, hstep, ho]
          simp
        · rw [if_neg ho, hstep, if_neg (by simp)]
          simp [List.append_assoc]
      · rw [if_neg hm]
        have hstep : ((msgUniqueWords m).foldl (fun t u => appendAt t u i) tm).lookup w =
            tm.lookup w := by
          rw [lookup_foldl_appendAt w i (msgUniqueWords m) (scanWords_nodup _ _) tm,
            if_neg hm]
        rw [hstep]

/-! Order and membership of the occurrence positions. -/

lemma occPositions_lb (w : String) : ∀ (ms : List Message) (i : Nat),
    ∀ j ∈ occPositions w i ms, i ≤ j := by
  intro ms
  induction ms with
  | nil => intro i j hj; simp [occPositions] at hj
  | cons m ms ih =>
      intro i j hj
      rw [occPositions] at hj
      split at hj
      · rcases List.mem_cons.mp hj with rfl | hj
        · exact le_refl j
        · exact le_trans (Nat.le_succ i) (ih (i + 1) j hj)
      · exact le_trans (Nat.le_succ i) (ih (i + 1) j hj)

lemma occPositions_pairwise (w : String) : ∀ (ms : List Message) (i : Nat),
    (occPositions w i ms).Pairwise (· < ·) := by
  intro ms
  induction ms with
  | nil => intro i; simp [occPositions]
  | cons m ms ih =>
      intro i
      rw [occPositions]
      split
      · exact List.Pairwise.cons
          (fun j hj => Nat.lt_of_lt_of_le (Nat.lt_succ_self i) (occPositions_lb w ms (i + 1) j hj))
          (ih (i + 1))
      · exact ih (i + 1)

lemma occPositions_mem (w : String) : ∀ (ms : List Message) (i j : Nat),
    j ∈ occPositions w i ms ↔
      ∃ (k : Nat) (hk : k < ms.length),
        j = i + k ∧ w ∈ msgUniqueWords (ms.get ⟨k, hk⟩) := by
  intro ms
  induction ms with
  | nil => intro i j; simp [occPositions]
  | cons m ms ih =>
      intro i j
      rw [occPositions]
      by_cases hm : w ∈ msgUniqueWords m
      · rw [if_pos hm]
        constructor
        · intro hj
          rcases List.mem_cons.mp hj with rfl | hj
          · exact ⟨0, by simp, by omega, by simpa using hm⟩
          · obtain ⟨k, hk, rfl, hw⟩ := (ih (i + 1) _).mp hj
            exact ⟨k + 1, by simpa using hk, by omega, by simpa using hw⟩
        · rintro ⟨k, hk, rfl, hw⟩
          cases k with
          | zero => exact List.mem_cons_self _ _
          | succ k =>
              refine List.mem_cons_of_mem _ ((ih (i + 1) _).mpr ⟨k, ?_, by omega, ?_⟩)
              · simpa using hk
              · simpa using hw
      · rw [if_neg hm]
        rw [ih]
        constructor
        · rintro ⟨k, hk, rfl, hw⟩
          exact ⟨k + 1, by simpa using hk, by omega, by simpa using hw⟩
        · rintro ⟨k, hk, rfl, hw⟩
          cases k with
          | zero => exact absurd (by simpa using hw) hm
          | succ k =>
              refine ⟨k, ?_, by omega, ?_⟩
              · simpa using hk
              · simpa using hw

/-- Claim C5: in the inverted index built by `build_search_index`, the
posting list of a word `w` is exactly the list of message-sequence
positions whose (lowercased, word-boundary-tokenized) search text contains
`w` as a word of length at least 3; the list is strictly increasing (so
each position occurs at most once, in first-occurrence order), and a word
contained in no message has no posting list. -/
theorem build_search_index_terms (ps : Nat) (msgs : List Message) (w : String) :
    ((buildSearchIndex ps msgs).terms.lookup w =
      if occPositions w 0 msgs = [] then none else some (occPositions w 0 msgs)) ∧
    (occPositions w 0 msgs).Pairwise (· < ·) ∧
    (∀ j, j ∈ occPositions w 0 msgs ↔
      ∃ (hj : j < msgs.length),
        3 ≤ w.length ∧ w ∈ tokenize (msgs.get ⟨j, hj⟩).searchText) := by
  refine ⟨?_, occPositions_pairwise w msgs 0, ?_⟩
  · have hterms : (buildSearchIndex ps msgs).terms = termsFrom [] 0 msgs := by
      rw [buildSearchIndex, foldl_indexStep]
    rw [hterms, lookup_termsFrom]
    split
    · simp [List.lookup]
    · simp [List.lookup]
  · intro j
    rw [occPositions_mem]
    constructor
    · rintro ⟨k, hk, rfl, hw⟩
      rw [mem_msgUniqueWords] at hw
      exact ⟨by simpa using hk, hw.2, by simpa using hw.1⟩
    · rintro ⟨hj, hlen, hw⟩
      exact ⟨j, hj, by omega, (mem_msgUniqueWords w _).mpr ⟨hw, hlen⟩⟩

/-! Document-map lemmas for claim C10. -/

lemma lt_div_succ_mul (i ps : Nat) (hps : 0 < ps) : i < (i / ps + 1) * ps := by
  have h1 := Nat.div_add_mod i ps
  have h2 : i % ps < ps := Nat.mod_lt i hps
  have h3 : (i / ps + 1) * ps = ps * (i / ps) + ps := by ring
  rw [h3]
  generalize ps * (i / ps) = a at *
  omega

lemma docEntriesFrom_get (ps : Nat) : ∀ (ms : List Message) (i k : Nat)
    (hk : k < ms.length),
    (docEntriesFrom ps i ms).get? k =
      some (toString (i + k),
        { id := (ms.get ⟨k, hk⟩).id
          page := (i + k) / ps + 1
          role := (ms.get ⟨k, hk⟩).role
          preview := strTake (ms.get ⟨k, hk⟩).content.textPreview 50 }) := by
  intro ms
  induction ms with
  | nil => intro i k hk; simp at hk
  | cons m ms ih =>
      intro i k hk
      cases k with
      | zero => simp [docEntriesFrom]
      | succ k =>
          rw [docEntriesFrom]
          have hk' : k < ms.length := by simpa using hk
          have := ih (i + 1) k hk'
          simp only [List.get?_cons_succ, List.get_cons_succ]
          rw [this]
          have harg : i + 1 + k = i + (k + 1) := by omega
          rw [harg]

/-- Claim C10: the search index's document map is consistent with the
paginator.  For every message position `i` and positive page size, the
document-map entry for `i` carries `page = i / ps + 1`, and the page of
`paginate_messages` whose half-open `[startIndex, endIndex)` range
contains `i` is exactly the page at 0-based index `i / ps`, whose 1-based
`page` number equals that entry's `page`. -/
theorem search_index_page_consistent (ps : Nat) (msgs : List Message) (i : Nat)
    (hps : 0 < ps) (hi : i < msgs.length) :
    ∃ e : DocEntry,
      (buildSearchIndex ps msgs).documentMap.get? i = some (toString i, e) ∧
      e.page = i / ps + 1 ∧
      ∃ (hk : i / ps < (paginateMessages ps msgs).length),
        ((paginateMessages ps msgs).get ⟨i / ps, hk⟩).page = e.page ∧
        ((paginateMessages ps msgs).get ⟨i / ps, hk⟩).startIndex ≤ i ∧
        i < ((paginateMessages ps msgs).get ⟨i / ps, hk⟩).endIndex ∧
        ∀ (k : Nat) (hk2 : k < (paginateMessages ps msgs).length),
          ((paginateMessages ps msgs).get ⟨k, hk2⟩).startIndex ≤ i →
          i < ((paginateMessages ps msgs).get ⟨k, hk2⟩).endIndex → k = i / ps := by
  have hdm : (buildSearchIndex ps msgs).documentMap = docEntriesFrom ps 0 msgs := by
    rw [buildSearchIndex, foldl_indexStep]
    simp
  have hget := docEntriesFrom_get ps msgs 0 i hi
  simp only [Nat.zero_add] at hget
  refine ⟨_, by rw [hdm]; exact hget, rfl, ?_⟩
  have hk : i / ps < (paginateMessages ps msgs).length := by
    rw [length_paginate]
    have h1 : (i / ps) * ps ≤ i := Nat.div_mul_le_self i ps
    have h2 := le_pageCount_mul msgs.length ps hps
    exact lt_of_mul_lt_mul_right (by omega) (Nat.zero_le ps)
  refine ⟨hk, ?_, ?_, ?_, ?_⟩
  · rw [paginate_get]
    simp [Nat.mul_div_cancel _ hps]
  · rw [paginate_get]
    exact Nat.div_mul_le_self i ps
  · rw [paginate_get]
    simp only [List.length_take, List.length_drop]
    have h1 : (i / ps) * ps ≤ i := Nat.div_mul_le_self i ps
    have h2 := lt_div_succ_mul i ps hps
    have h3 : (i / ps + 1) * ps = (i / ps) * ps + ps := Nat.succ_mul _ _
    generalize (i / ps) * ps = a at *
    omega
  · intro k hk2 hstart hend
    rw [paginate_get] at hstart hend
    simp only [List.length_take, List.length_drop] at hend
    have hik : i < (k + 1) * ps := by
      have h3 : (k + 1) * ps = k * ps + ps := Nat.succ_mul _ _
      generalize k * ps = a at *
      omega
    have hle : k ≤ i / ps := (Nat.le_div_iff_mul_le hps).mpr hstart
    have hlt : i / ps < k + 1 := (Nat.div_lt_iff_lt_mul hps).mpr hik
    omega

/-- Witness for C10 at a concrete input: one message, page size 100,
position 0. -/
theorem search_index_page_consistent_witness :
    ∃ e : DocEntry,
      (buildSearchIndex 100 [sampleMessage]).documentMap.get? 0 = some (toString 0, e) ∧
      e.page = 0 / 100 + 1 ∧
      ∃ (hk : 0 / 100 < (paginateMessages 100 [sampleMessage]).length),
        ((paginateMessages 100 [sampleMessage]).get ⟨0 / 100, hk⟩).page = e.page ∧
        ((paginateMessages 100 [sampleMessage]).get ⟨0 / 100, hk⟩).startIndex ≤ 0 ∧
        0 < ((paginateMessages 100 [sampleMessage]).get ⟨0 / 100, hk⟩).endIndex ∧
        ∀ (k : Nat) (hk2 : k < (paginateMessages 100 [sampleMessage]).length),
          ((paginateMessages 100 [sampleMessage]).get ⟨k, hk2⟩).startIndex ≤ 0 →
          0 < ((paginateMessages 100 [sampleMessage]).get ⟨k, hk2⟩).endIndex → k = 0 / 100 :=
  search_index_page_consistent 100 [sampleMessage] 0 (by decide) (by decide)

/-! Lemmas for claim C4 (`parse_transcript` retention). -/

lemma parseTranscriptAux_sound (cfg : Config) (repoPath : String) :
    ∀ (lines : List (Option Record)) (idx : Nat),
    ∀ m ∈ parseTranscriptAux cfg repoPath idx lines,
      (m.role = "user" ∨ m.role = "assistant") ∧
      (m.content.text ≠ "" ∨ m.content.toolCalls ≠ []) := by
  intro lines
  induction lines with
  | nil => intro idx m hm; simp [parseTranscriptAux] at hm
  | cons o rest ih =>
      intro idx m hm
      cases o with
      | none => exact ih (idx + 1) m (by simpa [parseTranscriptAux] using hm)
      | some r =>
          rw [parseTranscriptAux] at hm
          by_cases htype : r.type = "user" ∨ r.type = "assistant"
          · rw [if_pos htype] at hm
            by_cases hkeep : (parseMessageEntry cfg repoPath r idx).content.text ≠ "" ∨
                (parseMessageEntry cfg repoPath r idx).content.toolCalls ≠ []
            · rw [if_pos hkeep] at hm
              rcases List.mem_cons.mp hm with rfl | hm
              · exact ⟨htype, hkeep⟩
              · exact ih (idx + 1) m hm
            · rw [if_neg hkeep] at hm
              exact ih (idx + 1) m hm
          · rw [if_neg htype] at hm
            exact ih (idx + 1) m hm

lemma parseTranscriptAux_complete (cfg : Config) (repoPath : String) :
    ∀ (lines : List (Option Record)) (idx n : Nat) (r : Record),
    lines.get? n = some (some r) →
    (r.type = "user" ∨ r.type = "assistant") →
    ((parseMessageEntry cfg repoPath r (idx + n)).content.text ≠ "" ∨
      (parseMessageEntry cfg repoPath r (idx + n)).content.toolCalls ≠ []) →
    parseMessageEntry cfg repoPath r (idx + n) ∈ parseTranscriptAux cfg repoPath idx lines := by
  intro lines
  induction lines with
  | nil => intro idx n r hget; simp at hget
  | cons o rest ih =>
      intro idx n r hget htype hkeep
      cases n with
      | zero =>
          rw [List.get?_cons_zero] at hget
          obtain rfl : o = some r := Option.some.inj hget
          rw [parseTranscriptAux, if_pos htype]
          rw [if_pos (by simpa using hkeep)]
          have : idx + 0 = idx := rfl
          rw [this] at hkeep ⊢
          exact List.mem_cons_self _ _
      | succ n =>
          rw [List.get?_cons_succ] at hget
          have harg : idx + (n + 1) = (idx + 1) + n := by omega
          rw [harg] at hkeep ⊢
          have hmem := ih (idx + 1) n r hget htype hkeep
          cases o with
          | none => simpa [parseTranscriptAux] using hmem
          | some r' =>
              rw [parseTranscriptAux]
              by_cases htype' : r'.type = "user" ∨ r'.type = "assistant"
              · rw [if_pos htype']
                by_cases hkeep' : (parseMessageEntry cfg repoPath r' idx).content.text ≠ "" ∨
                    (parseMessageEntry cfg repoPath r' idx).content.toolCalls ≠ []
                · rw [if_pos hkeep']
                  exact List.mem_cons_of_mem _ hmem
                · rw [if_neg hkeep']
                  exact hmem
              · rw [if_neg htype']
                exact hmem

/-- Claim C4: every message `parse_transcript` returns has role `user` or
`assistant` and non-empty text or a non-empty tool-call list (records with
neither are dropped); conversely, every record of type `user` or
`assistant` yields a message whose role is exactly that type, and that
message is in the output whenever its text or tool-call list is non-empty.
Line `n` (0-based) of the file is parsed with source line number `n + 1`. -/
theorem parse_transcript_retention (cfg : Config) (repoPath : String)
    (lines : List (Option Record)) :
    (∀ m ∈ parseTranscript cfg repoPath lines,
      (m.role = "user" ∨ m.role = "assistant") ∧
      (m.content.text ≠ "" ∨ m.content.toolCalls ≠ [])) ∧
    (∀ (n : Nat) (r : Record), lines.get? n = some (some r) →
      (r.type = "user" ∨ r.type = "assistant") →
      ((parseMessageEntry cfg repoPath r (n + 1)).role = r.type ∧
        (((parseMessageEntry cfg repoPath r (n + 1)).content.text ≠ "" ∨
          (parseMessageEntry cfg repoPath r (n + 1)).content.toolCalls ≠ []) →
          parseMessageEntry cfg repoPath r (n + 1) ∈ parseTranscript cfg repoPath lines))) := by
  constructor
  · intro m hm
    exact parseTranscriptAux_sound cfg repoPath lines 1 m hm
  · intro n r hget htype
    refine ⟨rfl, fun hkeep => ?_⟩
    have harg : n + 1 = 1 + n := by omega
    rw [harg] at hkeep ⊢
    exact parseTranscriptAux_complete cfg repoPath lines 1 n r hget htype hkeep

/-- Witness for C4 at a concrete transcript: a `user` record with text is
retained with role `user`; an `assistant` record with neither text nor
tool calls is dropped, so the parse yields exactly the one message. -/
theorem parse_transcript_retention_witness :
    parseMessageEntry {} "/repo" userRecordExample 1 ∈
      parseTranscript {} "/repo" [some userRecordExample, some emptyRecordExample] ∧
    parseTranscript {} "/repo" [some userRecordExample, some emptyRecordExample] =
      [parseMessageEntry {} "/repo" userRecordExample 1] :=
  ⟨((parse_transcript_retention {} "/repo"
        [some userRecordExample, some emptyRecordExample]).2 0 userRecordExample rfl
      (Or.inl rfl)).2 (Or.inl (by decide)),
   by decide⟩

/-- Claim C6: `_extract_artifact_from_tool` yields an artifact only for
tool names `Write`, `Edit` and `Read` (any other name, or a missing/empty
`file_path`, yields none); the spec's `Write` call with
`file_path="/repo/a.py"` under repo root `/repo` yields exactly one
artifact of kind `file_create` with `relativePath = "a.py"`; and every
`Edit` artifact carries before/after previews that are `old_string` and
`new_string` truncated to at most 100 characters. -/
theorem extract_artifact_spec :
    (∀ (repoPath uuid msgId ts : String) (tc : ToolCall),
      tc.name ∉ ["Write", "Edit", "Read"] →
      extractArtifactFromTool repoPath uuid msgId ts tc = none) ∧
    (∀ (repoPath uuid msgId ts : String) (tc : ToolCall),
      getInput tc.input "file_path" = "" →
      extractArtifactFromTool repoPath uuid msgId ts tc = none) ∧
    (∃ a : Artifact,
      extractArtifactFromTool "/repo" "u1" "msg_u1" "t0" writeCallExample = some a ∧
      a.type = "file_create" ∧ a.relativePath = "a.py") ∧
    (∀ (repoPath uuid msgId ts : String) (tc : ToolCall),
      tc.name = "Edit" → getInput tc.input "file_path" ≠ "" →
      ∃ a : Artifact,
        extractArtifactFromTool repoPath uuid msgId ts tc = some a ∧
        a.type = "file_edit" ∧
        a.preview = some
          { before := strTake (getInput tc.input "old_string") 100
            after := strTake (getInput tc.input "new_string") 100 } ∧
        ∀ p, a.preview = some p → p.before.length ≤ 100 ∧ p.after.length ≤ 100) := by
  refine ⟨?_, ?_, ?_, ?_⟩
  · intro repoPath uuid msgId ts tc h
    rw [extractArtifactFromTool, if_pos h]
  · intro repoPath uuid msgId ts tc h
    rw [extractArtifactFromTool]
    by_cases hn : tc.name ∉ ["Write", "Edit", "Read"]
    · rw [if_pos hn]
    · rw [if_neg hn]
      simp [h]
  · exact ⟨_, rfl, rfl, rfl⟩
  · intro repoPath uuid msgId ts tc hname hfp
    rw [extractArtifactFromTool, if_neg (by simp [hname]), if_neg hfp]
    refine ⟨_, rfl, by simp [hname], by simp [hname], ?_⟩
    intro p hp
    simp only [hname, if_pos, Option.some.injEq] at hp
    cases hp
    constructor
    · show (strTake (getInput tc.input "old_string") 100).length ≤ 100
      have h1 : (strTake (getInput tc.input "old_string") 100).length =
          ((getInput tc.input "old_string").data.take 100).length := rfl
      rw [h1, List.length_take]
      omega
    · show (strTake (getInput tc.input "new_string") 100).length ≤ 100
      have h1 : (strTake (getInput tc.input "new_string") 100).length =
          ((getInput tc.input "new_string").data.take 100).length := rfl
      rw [h1, List.length_take]
      omega

/-- Witness for C6: a `Bash` call and an empty `file_path` yield no
artifact, and a concrete `Edit` call carries truncated previews. -/
theorem extract_artifact_spec_witness :
    extractArtifactFromTool "/repo" "u1" "m1" "t0"
      { id := "b1", name := "Bash", input := [("command", "ls")],
        inputPreview := "Run: ls", hasResult := false, resultPreview := none } = none ∧
    extractArtifactFromTool "/repo" "u1" "m1" "t0"
      { id := "w1", name := "Write", input := [],
        inputPreview := "Write ", hasResult := false, resultPreview := none } = none ∧
    ∃ a : Artifact,
      extractArtifactFromTool "/repo" "u2" "m2" "t1" editCallExample = some a ∧
      a.type = "file_edit" ∧
      a.preview = some
        { before := strTake (getInput editCallExample.input "old_string") 100
          after := strTake (getInput editCallExample.input "new_string") 100 } ∧
      ∀ p, a.preview = some p → p.before.length ≤ 100 ∧ p.after.length ≤ 100 :=
  ⟨extract_artifact_spec.1 "/repo" "u1" "m1" "t0" _ (by decide),
   extract_artifact_spec.2.1 "/repo" "u1" "m1" "t0" _ (by decide),
   extract_artifact_spec.2.2.2 "/repo" "u2" "m2" "t1" editCallExample rfl (by decide)⟩

/-! Lemmas and theorems for the commit extractor and correlator. -/

/-- Claim C7: when the version-control invocation fails (subprocess timeout
or missing git binary), `get_git_commits` returns an empty commit list
rather than raising; on a successful invocation it parses the log (shown
non-degenerate at a concrete output). -/
theorem get_git_commits_soft_failure :
    (∀ e : GitError, getGitCommits (Except.error e) = []) ∧
    getGitCommits (Except.ok
      "aaaabbbbccc|1970-01-01 10:30:00 +0000|update|dev\nM\tsrc/a.py\n") ≠ [] :=
  ⟨fun _ => rfl, by decide⟩

/-- Claim C2: for a commit and an assistant message whose timestamps both
parse, the message is a correlation candidate for the commit exactly when
`delta = commit_time - message_time` satisfies `0 ≤ delta ≤ 3600` seconds
(one hour, both bounds inclusive). -/
theorem correlation_candidate_iff (c : Commit) (m : Message) (tc tm : Int)
    (hrole : m.role = "assistant") (hc : commitTime c = some tc)
    (hm : msgTime m = some tm) :
    isCandidate c m = true ↔ 0 ≤ tc - tm ∧ tc - tm ≤ 3600 := by
  rw [isCandidate, if_neg (by simp [hrole]), hc, hm]
  simp

/-- Witness for C2: a commit 59 minutes after the assistant message is a
candidate (via the theorem at `delta = 3540`), one 61 minutes after is
not, and one before the message is not. -/
theorem correlation_candidate_iff_witness :
    isCandidate exCommit59 exMessage = true ∧
    isCandidate exCommit61 exMessage = false ∧
    isCandidate exCommitBefore exMessage = false :=
  ⟨(correlation_candidate_iff exCommit59 exMessage 39540 36000 (by decide) (by decide)
      (by decide)).mpr (by decide),
   by decide, by decide⟩

/-! Lemmas for claim C3: the artifact-loop fold of `correlatePair`. -/

lemma foldl_linkArtifact (arts : List (String × Artifact)) :
    ∀ (aids : List String) (c : Commit) (m : Message),
    aids.foldl (fun cm aid => linkArtifact arts cm.1 cm.2 aid) (c, m) =
      ({ c with
          relatedMessages := c.relatedMessages ++
            (aids.filter (artifactHasMatch arts c.filesChanged)).map (fun _ => m.id)
          relatedArtifacts := c.relatedArtifacts ++
            aids.filter (artifactHasMatch arts c.filesChanged) },
       { m with relatedCommits := m.relatedCommits ++
            (aids.filter (artifactHasMatch arts c.filesChanged)).map (fun _ => c.hash) }) := by
  intro aids
  induction aids with
  | nil => intro c m; simp
  | cons aid aids ih =>
      intro c m
      rw [List.foldl_cons]
      show aids.foldl (fun cm aid => linkArtifact arts cm.1 cm.2 aid)
          (linkArtifact arts c m aid) = _
      by_cases h : artifactHasMatch arts c.filesChanged aid = true
      · rw [linkArtifact, if_pos h, ih]
        simp [List.filter_cons, h, List.append_assoc]
      · rw [linkArtifact, if_neg h, ih]
        simp [List.filter_cons, h]

/-- Claim C3 (amended): in the correlator, for each candidate message and
each of its artifacts in order, if some file-change entry of the commit
matches the artifact (its repo-relative path is a non-empty substring of
the changed file's path), exactly one bidirectional link is recorded for
that artifact — the message id and artifact id are appended to the
commit's related lists and the commit's short hash to the message's
related-commits list — and the scan over the commit's remaining
file-change entries stops for that artifact: first match wins per
artifact, not per file-change. -/
theorem correlate_pair_links (arts : List (String × Artifact)) (c : Commit)
    (m : Message) (hcand : isCandidate c m = true) :
    (correlatePair arts c m).1.relatedArtifacts =
      c.relatedArtifacts ++ m.artifacts.filter (artifactHasMatch arts c.filesChanged) ∧
    (correlatePair arts c m).1.relatedMessages =
      c.relatedMessages ++
        (m.artifacts.filter (artifactHasMatch arts c.filesChanged)).map (fun _ => m.id) ∧
    (correlatePair arts c m).2.relatedCommits =
      m.relatedCommits ++
        (m.artifacts.filter (artifactHasMatch arts c.filesChanged)).map (fun _ => c.hash) ∧
    (correlatePair arts c m).1.filesChanged = c.filesChanged := by
  rw [correlatePair, if_pos hcand, foldl_linkArtifact]
  exact ⟨rfl, rfl, rfl, rfl⟩

/-- Witness for C3's amended statement at a concrete candidate pair. -/
theorem correlate_pair_links_witness :
    (correlatePair exArtifacts exCommit exMessage).1.relatedArtifacts =
      exCommit.relatedArtifacts ++
        exMessage.artifacts.filter (artifactHasMatch exArtifacts exCommit.filesChanged) :=
  (correlate_pair_links exArtifacts exCommit exMessage (by decide)).1

/-- Counterexample to C3 as stated: `exCommit` has a single file-change
entry, yet the source records two links for it (one per matching artifact
of the message), duplicating the short hash; under the claim's
first-match-wins-per-file-change reading (`correlatePairPerFileChange`)
only the first artifact would be linked. -/
theorem correlate_first_match_per_file_change_refuted :
    exCommit.filesChanged.length = 1 ∧
    (matchCommitsToMessages exArtifacts [exCommit] [exMessage]).1.map
        Commit.relatedArtifacts = [["art_ex1", "art_ex2"]] ∧
    (matchCommitsToMessages exArtifacts [exCommit] [exMessage]).2.map
        Message.relatedCommits = [["abc1234", "abc1234"]] ∧
    (correlatePairPerFileChange exArtifacts exCommit exMessage).1.relatedArtifacts =
      ["art_ex1"] := by
  decide

/-- Claim C9: for some inputs the correlation lists contain duplicates —
with two distinct artifacts of one candidate message both matching the
same commit's changed file, the commit's short hash is appended to the
message's related-commits list once per matching artifact, and the
commit's related-messages list holds the message id twice. -/
theorem correlation_lists_duplicates :
    exArtifact1.id ≠ exArtifact2.id ∧
    (matchCommitsToMessages exArtifacts [exCommit] [exMessage]).1.map
        Commit.relatedMessages = [[exMessage.id, exMessage.id]] ∧
    (matchCommitsToMessages exArtifacts [exCommit] [exMessage]).2.map
        Message.relatedCommits = [[exCommit.hash, exCommit.hash]] := by
  decide

/-! Lemmas for claim C8: the extractor splits into three independent
components, and the filesystem component is an idempotent write sequence. -/

lemma extractFileChange_eq (store : String → String → Option String) (c cur : Commit)
    (iv : ImageVersions) (fs : FS) (fc : FileChange) :
    extractFileChange store c (cur, iv, fs) fc =
      (stepCommit store c cur fc, stepIV store c iv fc, stepFS store c fs fc) := by
  cases hw : changeWrite store c fc <;>
    simp [extractFileChange, stepCommit, stepIV, stepFS, hw]

lemma foldl_extract_split (store : String → String → Option String) (c : Commit) :
    ∀ (fcs : List FileChange) (cur : Commit) (iv : ImageVersions) (fs : FS),
    fcs.foldl (extractFileChange store c) (cur, iv, fs) =
      (fcs.foldl (stepCommit store c) cur, fcs.foldl (stepIV store c) iv,
       fcs.foldl (stepFS store c) fs) := by
  intro fcs
  induction fcs with
  | nil => intro cur iv fs; rfl
  | cons fc fcs ih =>
      intro cur iv fs
      rw [List.foldl_cons, extractFileChange_eq, ih, List.foldl_cons, List.foldl_cons,
        List.foldl_cons]

lemma extract_split (store : String → String → Option String) :
    ∀ (cs : List Commit) (iv : ImageVersions) (fs : FS),
    extractVersionedArtifacts store cs iv fs =
      (commitsOut store cs, ivOut store cs iv, fsOut store cs fs) := by
  intro cs
  induction cs with
  | nil => intro iv fs; rfl
  | cons c cs ih =>
      intro iv fs
      rw [extractVersionedArtifacts, extractCommit, foldl_extract_split]
      dsimp only
      rw [ih]
      simp [commitsOut, ivOut, fsOut]

lemma stepFS_writes (store : String → String → Option String) (c : Commit) :
    ∀ (fcs : List FileChange) (fs : FS),
    fcs.foldl (stepFS store c) fs = applyWrites (writesOf store c fcs) fs := by
  intro fcs
  induction fcs with
  | nil => intro fs; rfl
  | cons fc fcs ih =>
      intro fs
      cases hw : changeWrite store c fc <;>
        simp [List.foldl_cons, stepFS, hw, writesOf, List.filterMap_cons, ih, applyWrites]

lemma applyWrites_append (w1 w2 : List (String × String)) (fs : FS) :
    applyWrites (w1 ++ w2) fs = applyWrites w2 (applyWrites w1 fs) := by
  induction w1 generalizing fs with
  | nil => rfl
  | cons w w1 ih => rw [List.cons_append, applyWrites, applyWrites, ih]

lemma fsOut_writes (store : String → String → Option String) :
    ∀ (cs : List Commit) (fs : FS),
    fsOut store cs fs = applyWrites (allWrites store cs) fs := by
  intro cs
  induction cs with
  | nil => intro fs; rfl
  | cons c cs ih =>
      intro fs
      rw [fsOut, ih, allWrites, applyWrites_append, stepFS_writes]

lemma applyWrites_apply : ∀ (ws : List (String × String)) (fs : FS) (q : String),
    applyWrites ws fs q =
      match lastWrite ws q with
      | some v => some v
      | none => fs q := by
  intro ws
  induction ws with
  | nil => intro fs q; rfl
  | cons w ws ih =>
      intro fs q
      rw [applyWrites, ih, lastWrite]
      cases hl : lastWrite ws q with
      | some v => rfl
      | none =>
          show fsWrite fs w.1 w.2 q =
            match (if w.1 = q then some w.2 else none : Option String) with
            | some v => some v
            | none => fs q
          by_cases h : w.1 = q
          · rw [if_pos h]
            show (if q = w.1 then some w.2 else fs q) = some w.2
            rw [if_pos h.symm]
          · rw [if_neg h]
            show (if q = w.1 then some w.2 else fs q) = fs q
            rw [if_neg (fun hh => h hh.symm)]

lemma applyWrites_idem (ws : List (String × String)) (fs : FS) :
    applyWrites ws (applyWrites ws fs) = applyWrites ws fs := by
  funext q
  rw [applyWrites_apply, applyWrites_apply]
  cases h : lastWrite ws q with
  | some v => rfl
  | none => rfl

/-- Claim C8: `extract_versioned_artifacts` is idempotent.  With the
commit history and the object store fixed, running the extraction a second
time — starting from the output directory the first run produced — yields
an identical image-version map (same base-name keys, same ordered entries
of commit hash, timestamp and local path), identical per-commit
versioned-artifact records, and leaves the output directory unchanged. -/
theorem extract_versioned_artifacts_idempotent
    (store : String → String → Option String) (commits : List Commit) (fs0 : FS) :
    (extractVersionedArtifacts store commits []
        (extractVersionedArtifacts store commits [] fs0).2.2).2.1 =
      (extractVersionedArtifacts store commits [] fs0).2.1 ∧
    (extractVersionedArtifacts store commits []
        (extractVersionedArtifacts store commits [] fs0).2.2).1 =
      (extractVersionedArtifacts store commits [] fs0).1 ∧
    (extractVersionedArtifacts store commits []
        (extractVersionedArtifacts store commits [] fs0).2.2).2.2 =
      (extractVersionedArtifacts store commits [] fs0).2.2 := by
  rw [extract_split, extract_split]
  refine ⟨rfl, rfl, ?_⟩
  show fsOut store commits (fsOut store commits fs0) = fsOut store commits fs0
  rw [fsOut_writes, fsOut_writes]
  exact applyWrites_idem _ _

end Hypertransparency
